import Mathlib

/-!
Verification development for the PianoMaker score-refinement pipeline
(src/server/inference.py).  Times are embedded as exact rationals, MIDI
pitches and velocities as integers.  The stable Python `list.sort` is
embedded as `List.insertionSort` (a stable sort) with the corresponding
key order as a relation; the Python banker rounding (`round`) is embedded
as `pyround`; the randomness of the humanizer is passed in as explicit
per-note draw functions.
-/

set_option maxHeartbeats 1600000
set_option maxRecDepth 40000

/-- Embeds the Python built-in `abs` on a rational value. -/
def absQ (q : ℚ) : ℚ := if q < 0 then -q else q

/-- Embeds the Python built-in `round`: round half to even. -/
def pyround (x : ℚ) : ℤ :=
  if x - ⌊x⌋ < 1/2 then ⌊x⌋
  else if 1/2 < x - ⌊x⌋ then ⌊x⌋ + 1
  else if Even ⌊x⌋ then ⌊x⌋ else ⌊x⌋ + 1

/-- Embeds `pretty_midi.Note`: pitch, velocity, onset and offset in
seconds.  The field `stop` embeds the source attribute `end` (`end` is a
Lean keyword). -/
structure Note where
  pitch : ℤ
  velocity : ℤ
  start : ℚ
  stop : ℚ
deriving DecidableEq, Repr

/-- Embeds `_quantize_time` (inference.py:56-59): snap a time to the
nearest grid point. -/
def _quantize_time (value_sec grid_sec : ℚ) : ℚ :=
  if grid_sec ≤ 0 then value_sec else pyround (value_sec / grid_sec) * grid_sec

/-- Embeds the pitch clamping of `_post_process_midi` (inference.py:86-89):
two independent comparisons against the floor and the ceiling. -/
def clampPitch (pmin pmax p : ℤ) : ℤ :=
  let p1 := if p < pmin then pmin else p
  if pmax < p1 then pmax else p1

/-- Embeds the quantization step of `_post_process_midi`
(inference.py:91-95): round `start` and `end` to the grid; if that
collapses the note, stretch `end` to `start + grid`. -/
def quantizeNote (grid : ℚ) (n : Note) : Note :=
  let s := _quantize_time n.start grid
  let e := _quantize_time n.stop grid
  if e ≤ s then { n with start := s, stop := s + grid } else { n with start := s, stop := e }

/-- Embeds the per-note cleanup of `_post_process_midi`
(inference.py:84-99): clamp the pitch, optionally quantize, then enforce
the minimum duration. -/
def processNote (sixteenth : Bool) (grid minDur : ℚ) (pmin pmax : ℤ) (n : Note) : Note :=
  let n1 := { n with pitch := clampPitch pmin pmax n.pitch }
  let n2 := if sixteenth = true ∧ 0 < grid then quantizeNote grid n1 else n1
  if n2.stop - n2.start < minDur then { n2 with stop := n2.start + minDur } else n2

/-- Embeds one output sample of `np.convolve(velocities, [1,2,1]/4)` in
mode same, followed by `int(max(1, min(127, round(v))))`
(inference.py:101-109); out-of-range neighbours contribute 0 (zero
padding). -/
def smoothVal (vs : List ℤ) (i : ℕ) : ℤ :=
  let prev : ℚ := if i = 0 then 0 else ((vs.getD (i-1) 0 : ℤ) : ℚ)
  let cur : ℚ := ((vs.getD i 0 : ℤ) : ℚ)
  let next : ℚ := ((vs.getD (i+1) 0 : ℤ) : ℚ)
  max 1 (min 127 (pyround ((prev + 2*cur + next) / 4)))

/-- Embeds velocity smoothing applied note by note (velocities only;
timing fields are untouched by inference.py:101-109). -/
def smoothNotes (vs : List ℤ) : ℕ → List Note → List Note
  | _, [] => []
  | i, n :: rest => { n with velocity := smoothVal vs i } :: smoothNotes vs (i+1) rest

/-- Embeds the humanization of one note (inference.py:113-120).  Here `jT`
is the uniform timing offset drawn for this note from `[-hT, hT]` and `jV`
the velocity offset drawn from `[-hV, hV]`.  The new `start` is clamped at
0 first and the new `end` is computed from the clamped `start`, exactly as
the two mutating statements run in sequence. -/
def humanizeNote (hT : ℚ) (hV : ℤ) (jT : ℚ) (jV : ℤ) (n : Note) : Note :=
  let n1 := if 0 < hT then
      let s := max 0 (n.start + jT)
      { n with start := s, stop := max (s + 1/100) (n.stop + jT) }
    else n
  if 0 < hV then { n1 with velocity := max 1 (min 127 (n1.velocity + jV)) } else n1

/-- Embeds humanization over a note list; the draws are supplied
explicitly as functions of the note index (the source uses `np.random`). -/
def humanizePass (hT : ℚ) (hV : ℤ) (tDraw : ℕ → ℚ) (vDraw : ℕ → ℤ) : ℕ → List Note → List Note
  | _, [] => []
  | i, n :: rest =>
    humanizeNote hT hV (tDraw i) (vDraw i) n :: humanizePass hT hV tDraw vDraw (i+1) rest

/-- Embeds `sort(key=lambda x: x.start)` used before sustain synthesis
(inference.py:125). -/
def startLE (a b : Note) : Prop := a.start ≤ b.start

instance : DecidableRel startLE := fun a b => by unfold startLE; exact inferInstance

/-- Embeds `_post_process_midi` (inference.py:62-143) restricted to the
note list of one instrument.  Control-change (pedal) events are
accumulated into a separate list in the source and never alter notes;
they are not modeled.  The `add_sustain` branch also sorts the notes by
`start`, which is modeled. -/
def postProcessNotes (bpm : Option ℚ) (minDur : ℚ) (sixteenth : Bool) (pmin pmax : ℤ)
    (smoothVel : Bool) (hT : ℚ) (hV : ℤ) (addSustain : Bool)
    (tDraw : ℕ → ℚ) (vDraw : ℕ → ℤ) (notes : List Note) : List Note :=
  let bpmv := bpm.getD 120
  let grid : ℚ := if sixteenth = true then (60 / bpmv) / 4 else 0
  let ns1 := notes.map (processNote sixteenth grid minDur pmin pmax)
  let ns2 := if smoothVel = true ∧ 3 ≤ ns1.length then smoothNotes (ns1.map Note.velocity) 0 ns1
    else ns1
  let ns3 := if (0 < hT ∨ 0 < hV) ∧ ns2 ≠ [] then humanizePass hT hV tDraw vDraw 0 ns2 else ns2
  if addSustain = true ∧ ns3 ≠ [] then ns3.insertionSort startLE else ns3

/-- Embeds the sort key `(start, -velocity, pitch)` of `_clean_polyphony`
(inference.py:155) as a total preorder. -/
def cleanLE (a b : Note) : Prop :=
  a.start < b.start ∨ (a.start = b.start ∧
    (b.velocity < a.velocity ∨ (a.velocity = b.velocity ∧ a.pitch ≤ b.pitch)))

instance : DecidableRel cleanLE := fun a b => by unfold cleanLE; exact inferInstance

/-- Embeds the ranking of the cap pass (inference.py:176):
`sort(key=lambda n: (n.velocity, -n.pitch), reverse=True)`, that is
velocity descending and, on ties, pitch ascending. -/
def rankGE (a b : Note) : Prop :=
  b.velocity < a.velocity ∨ (a.velocity = b.velocity ∧ a.pitch ≤ b.pitch)

instance : DecidableRel rankGE := fun a b => by unfold rankGE; exact inferInstance

/-- Embeds the chronological key `(start, pitch)` used to restore order
among kept notes (inference.py:179). -/
def chronoLE (a b : Note) : Prop :=
  a.start < b.start ∨ (a.start = b.start ∧ a.pitch ≤ b.pitch)

instance : DecidableRel chronoLE := fun a b => by unfold chronoLE; exact inferInstance

/-- Embeds one step of the merge (dedup) pass of `_clean_polyphony`
(inference.py:158-164).  The accumulator holds the kept notes in reverse
order; a same-pitch note starting within the window extends the last kept
note instead of being appended. -/
def mergeDup (w : ℚ) (acc : List Note) (n : Note) : List Note :=
  match acc with
  | [] => [n]
  | m :: rest =>
    if n.pitch = m.pitch ∧ absQ (n.start - m.start) ≤ w then
      { m with stop := max m.stop n.stop, velocity := max m.velocity n.velocity } :: rest
    else n :: m :: rest

/-- Embeds the merge (dedup) pass of `_clean_polyphony`
(inference.py:157-164). -/
def mergePass (w : ℚ) (ns : List Note) : List Note := (ns.foldl (mergeDup w) []).reverse

/-- Embeds the cap of one onset group (inference.py:175-179): rank, keep
the strongest `cap` notes, restore chronological order. -/
def keepTop (cap : ℕ) (group : List Note) : List Note :=
  ((group.insertionSort rankGE).take cap).insertionSort chronoLE

/-- Embeds the grouping while loop of `_clean_polyphony`
(inference.py:168-181): `first` is `merged[i]`, `group` the (reversed)
tail of the current onset group; membership is measured against the first
note of the group. -/
def capPassAux (w : ℚ) (cap : ℕ) (first : Note) (group : List Note) : List Note → List Note
  | [] => keepTop cap (first :: group.reverse)
  | n :: rest =>
    if n.start - first.start ≤ w then capPassAux w cap first (n :: group) rest
    else keepTop cap (first :: group.reverse) ++ capPassAux w cap n [] rest

/-- Embeds the cap pass of `_clean_polyphony` (inference.py:166-182). -/
def capPass (w : ℚ) (cap : ℕ) : List Note → List Note
  | [] => []
  | n :: rest => capPassAux w cap n [] rest

/-- Lists the onset clusters of a note list: consecutive notes whose
`start` lies within `w` of the first note of the cluster (the same
grouping the cap pass performs, with the groups returned instead of
capped). -/
def clustersAux (w : ℚ) (first : Note) (group : List Note) : List Note → List (List Note)
  | [] => [first :: group.reverse]
  | n :: rest =>
    if n.start - first.start ≤ w then clustersAux w first (n :: group) rest
    else (first :: group.reverse) :: clustersAux w n [] rest

/-- Gives the onset-cluster decomposition corresponding to `capPass`. -/
def clusters (w : ℚ) : List Note → List (List Note)
  | [] => []
  | n :: rest => clustersAux w n [] rest

/-- Embeds `_clean_polyphony` (inference.py:146-184) on the notes of one
instrument. -/
def _clean_polyphony (onset_window_sec : ℚ) (max_notes_per_onset : ℕ) (ns : List Note) :
    List Note :=
  capPass onset_window_sec max_notes_per_onset
    (mergePass onset_window_sec (ns.insertionSort cleanLE))

/-- Counts the notes sounding at instant `t` (the measure used by the
polyphony bound of the spec: `start <= t < end`). -/
def soundingCount (ns : List Note) (t : ℚ) : ℕ :=
  (ns.filter (fun n => decide (n.start ≤ t ∧ t < n.stop))).length

/-- Embeds the sort key `(start, pitch, -velocity)` of `_merge_midis_union`
(inference.py:325). -/
def unionLE (a b : Note) : Prop :=
  a.start < b.start ∨ (a.start = b.start ∧
    (a.pitch < b.pitch ∨ (a.pitch = b.pitch ∧ b.velocity ≤ a.velocity)))

instance : DecidableRel unionLE := fun a b => by unfold unionLE; exact inferInstance

/-- Embeds one step of the dedup walk of `_merge_midis_union`
(inference.py:329-335), accumulator in reverse order.  When the current
note matches the last kept note (same pitch, starts within the window),
the current note replaces it iff it has strictly longer duration OR
strictly higher velocity. -/
def dedupStep (w : ℚ) (acc : List Note) (n : Note) : List Note :=
  match acc with
  | [] => [n]
  | m :: rest =>
    if n.pitch = m.pitch ∧ absQ (n.start - m.start) ≤ w then
      if m.stop - m.start < n.stop - n.start ∨ m.velocity < n.velocity then n :: rest
      else m :: rest
    else n :: m :: rest

/-- Embeds `_merge_midis_union` (inference.py:304-339) on the note lists of
the two scores (notes are copied by value in the source;
`onset_window_sec` is a parameter the source never reads). -/
def _merge_midis_union (onset_window_sec dedup_window_sec : ℚ) (a b : List Note) : List Note :=
  (((a ++ b).insertionSort unionLE).foldl (dedupStep dedup_window_sec) []).reverse

/-- Embeds `list(sorted(set(...)))` on integer lists (Python set plus
sorted). -/
def sortedPcs (l : List ℤ) : List ℤ := l.dedup.insertionSort (· ≤ ·)

/-- Embeds `set(p % 12 for p in pitch_classes)` (inference.py:1723). -/
def pcSet (l : List ℤ) : List ℤ := (l.map (fun p => p % 12)).dedup

/-- Embeds the major triad template `{r, r+4, r+7} mod 12` as a sorted list
(inference.py:1727, 1732). -/
def majorTriad (r : ℕ) : List ℤ :=
  sortedPcs [((r : ℤ)) % 12, ((r : ℤ) + 4) % 12, ((r : ℤ) + 7) % 12]

/-- Embeds the minor triad template `{r, r+3, r+7} mod 12` as a sorted list
(inference.py:1728, 1735). -/
def minorTriad (r : ℕ) : List ℤ :=
  sortedPcs [((r : ℤ)) % 12, ((r : ℤ) + 3) % 12, ((r : ℤ) + 7) % 12]

/-- Lists the candidates in the exact order the scan of `_classify_chord`
tests them: roots 0..11 ascending, major before minor
(inference.py:1726-1736). -/
def chordCands : List (ℕ × List ℤ) :=
  (List.range 12).flatMap (fun r => [(r, majorTriad r), (r, minorTriad r)])

/-- Embeds `len(triad & pcs)`: the overlap count between a triad and the
pitch-class set (both duplicate-free lists). -/
def chordScore (pcs : List ℤ) (c : ℕ × List ℤ) : ℤ :=
  ((c.2.filter (fun p => decide (p ∈ pcs))).length : ℤ)

/-- Embeds the `if score > best_score` update of `_classify_chord`
(inference.py:1731-1736), one candidate at a time. -/
def argStep {α : Type} (f : α → ℤ) (acc : Option α × ℤ) (a : α) : Option α × ℤ :=
  if acc.2 < f a then (some a, f a) else acc

/-- Embeds `_classify_chord` (inference.py:1718-1737). -/
def _classify_chord (pitch_classes : List ℤ) : Option (ℕ × List ℤ) :=
  if pitch_classes = [] then none
  else (chordCands.foldl (argStep (chordScore (pcSet pitch_classes))) (none, -1)).1

/-- Embeds `while p < lo: p += 12` (inference.py:1834-1835). -/
def liftAbove (lo : ℤ) (p : ℤ) : ℤ :=
  if p < lo then liftAbove lo (p + 12) else p
termination_by (lo - p).toNat
decreasing_by simp_wf; omega

/-- Embeds `while p > hi: p -= 12` (inference.py:1836-1837). -/
def dropBelow (hi : ℤ) (p : ℤ) : ℤ :=
  if hi < p then dropBelow hi (p - 12) else p
termination_by (p - hi).toNat
decreasing_by simp_wf; omega

/-- Embeds the voicing of one chord pitch class near `treble_center`
(inference.py:1833-1837). -/
def voicePitch (tc pc : ℤ) : ℤ := dropBelow (tc + 9) (liftAbove (tc - 7) pc)

/-- Embeds `treble_pitches = sorted(set(voiced))` (inference.py:1831-1839). -/
def treblePitches (tc : ℤ) (chordPcs : List ℤ) : List ℤ :=
  sortedPcs (chordPcs.map (voicePitch tc))

/-- Lists the pitch classes of the notes overlapping a block `[t, t2)`
(inference.py:1819-1823). -/
def activePcs (notes : List Note) (t t2 : ℚ) : List ℤ :=
  (notes.filter (fun n => decide (n.start < t2 ∧ t < n.stop))).map (fun n => n.pitch % 12)

/-- Embeds the notes `_arrange_piano_style` emits for one block `[t, t2)`
(inference.py:1824-1867): classify the active pitch classes, then render
them in the selected pattern (arpeggio, alberti, or the block default). -/
def arrangeBlockNotes (style : String) (bassOctave tc : ℤ) (pcs : List ℤ) (t t2 : ℚ) :
    List Note :=
  match _classify_chord pcs with
  | none => []
  | some (rootPc, chordPcs) =>
    let bassPitch : ℤ := (rootPc : ℤ) + bassOctave * 12
    let trebles := treblePitches tc chordPcs
    if style = "arpeggio" then
      let steps : ℕ := max 1 (bassPitch :: trebles).length
      let stepDur : ℚ := (t2 - t) / (steps : ℚ)
      ((bassPitch :: trebles).enum).map (fun ip =>
        { velocity := 82, pitch := ip.2, start := t + (ip.1 : ℚ) * stepDur,
          stop := t + (ip.1 : ℚ) * stepDur + max (2/25) (stepDur * (9/10)) })
    else if style = "alberti" then
      let triad0 := (trebles.insertionSort (· ≤ ·)).take 3
      let triad := if triad0.length < 3 then (triad0 ++ [tc, tc + 4, tc + 7]).take 3 else triad0
      let pattern : List ℤ := [bassPitch, triad.getD 2 0, triad.getD 0 0, triad.getD 2 0]
      let stepDur : ℚ := if 0 < t2 - t then (t2 - t) / ((4 * pattern.length : ℕ) : ℚ) else 1/10
      (List.range (4 * pattern.length)).map (fun i =>
        { velocity := 78, pitch := pattern.getD (i % 4) 0,
          start := t + (i : ℚ) * stepDur, stop := t + (i : ℚ) * stepDur + max (3/50) stepDur })
    else
      { velocity := 72, pitch := bassPitch, start := t, stop := t2 } ::
        trebles.map (fun p => { velocity := 85, pitch := p, start := t, stop := t2 })

/-- Models a numpy float energy value: a finite rational or an IEEE
special value (nan, +inf, -inf).  Used for the chroma energies consumed by
`_refine_midi_against_audio`. -/
inductive EV where
  | nan : EV
  | pinf : EV
  | ninf : EV
  | fin : ℚ → EV
deriving DecidableEq, Repr

/-- Embeds `np.clip(x, 0.0, None)` on one value (inference.py:225): a
lower clip only.  numpy clip propagates NaN and leaves +inf alone; -inf
and negative values become 0. -/
def EV.clip0 : EV → EV
  | EV.nan => EV.nan
  | EV.pinf => EV.pinf
  | EV.ninf => EV.fin 0
  | EV.fin q => EV.fin (max 0 q)

/-- Models IEEE addition on energy values. -/
def EV.add : EV → EV → EV
  | EV.nan, _ => EV.nan
  | _, EV.nan => EV.nan
  | EV.pinf, EV.ninf => EV.nan
  | EV.ninf, EV.pinf => EV.nan
  | EV.pinf, _ => EV.pinf
  | _, EV.pinf => EV.pinf
  | EV.ninf, _ => EV.ninf
  | _, EV.ninf => EV.ninf
  | EV.fin a, EV.fin b => EV.fin (a + b)

/-- Models IEEE division on energy values (signed zeros are collapsed to
`fin 0`; no comparison used by the refiner distinguishes them). -/
def EV.div : EV → EV → EV
  | EV.nan, _ => EV.nan
  | _, EV.nan => EV.nan
  | EV.pinf, EV.pinf => EV.nan
  | EV.pinf, EV.ninf => EV.nan
  | EV.ninf, EV.pinf => EV.nan
  | EV.ninf, EV.ninf => EV.nan
  | EV.pinf, EV.fin b => if b < 0 then EV.ninf else EV.pinf
  | EV.ninf, EV.fin b => if b < 0 then EV.pinf else EV.ninf
  | EV.fin _, EV.pinf => EV.fin 0
  | EV.fin _, EV.ninf => EV.fin 0
  | EV.fin a, EV.fin b =>
    if b = 0 then (if a = 0 then EV.nan else if a < 0 then EV.ninf else EV.pinf)
    else EV.fin (a / b)

/-- Models the IEEE comparison `x >= c` against a finite threshold: any
comparison with NaN is false. -/
def EV.geQ : EV → ℚ → Bool
  | EV.nan, _ => false
  | EV.pinf, _ => true
  | EV.ninf, _ => false
  | EV.fin q, c => decide (c ≤ q)

/-- Models the IEEE comparison `x >= y` between energy values (used by
`v >= thresh`, inference.py:273): any comparison with NaN is false. -/
def EV.geE : EV → EV → Bool
  | EV.nan, _ => false
  | _, EV.nan => false
  | EV.pinf, _ => true
  | _, EV.pinf => false
  | _, EV.ninf => true
  | EV.ninf, _ => false
  | EV.fin a, EV.fin b => decide (b ≤ a)

/-- Models the NaN-propagating maximum computed by `np.ndarray.max`. -/
def EV.max2 : EV → EV → EV
  | EV.nan, _ => EV.nan
  | _, EV.nan => EV.nan
  | EV.pinf, _ => EV.pinf
  | _, EV.pinf => EV.pinf
  | EV.ninf, y => y
  | x, EV.ninf => x
  | EV.fin a, EV.fin b => EV.fin (max a b)

/-- Models `np.max` over a (nonempty) list of energies; numpy raises on an
empty array, and the source returns early on empty chroma
(inference.py:223). -/
def evMax : List EV → EV
  | [] => EV.nan
  | x :: xs => xs.foldl EV.max2 x

/-- Models the sum of a list of energies. -/
def evSum (l : List EV) : EV := l.foldl EV.add (EV.fin 0)

/-- Models `np.ndarray.mean` over a frame slice (NaN on an empty slice). -/
def evMean (l : List EV) : EV :=
  if l = [] then EV.nan else EV.div (evSum l) (EV.fin (l.length : ℚ))

/-- Embeds `cmax = float(chroma.max()) or 1.0` (inference.py:226): only an
exact 0.0 is falsy in Python; NaN and the infinities are truthy and
survive. -/
def cmaxOr (rows : List (List EV)) : EV :=
  let m := evMax rows.flatten
  if m = EV.fin 0 then EV.fin 1 else m

/-- Embeds the support score of a note over its chroma frame slice:
`chroma[pc, i0:i1].mean() / cmax` (inference.py:241). -/
def supportScore (frames : List EV) (cmax : EV) : EV := EV.div (evMean frames) cmax

/-- Embeds the prune decision `support >= 0.12` (inference.py:242). -/
def pruneKeep (frames : List EV) (cmax : EV) : Bool :=
  EV.geQ (supportScore frames cmax) (12/100)

/-- Embeds the fill-candidate test `v >= thresh and v / cmax >= 0.15`
(inference.py:273). -/
def fillCandidate (v thresh cmax : EV) : Bool :=
  EV.geE v thresh && EV.geQ (EV.div v cmax) (15/100)

/-- Modelled from the spec: the coercion that section 7 of the spec
mandates (NaN/Inf energy values must be coerced to 0 before use in
comparisons).  Used only to compare the required behaviour of the spec
against the actual clipping of the code. -/
def coerceSpec : EV → EV
  | EV.nan => EV.fin 0
  | EV.pinf => EV.fin 0
  | EV.ninf => EV.fin 0
  | EV.fin q => EV.fin q

/-- Models the ranking as claim C5 words it: velocity descending, pitch
descending.  Second definition written from the words of the spec, for
comparison with `rankGE` from the source. -/
def rankSpecGE (a b : Note) : Prop :=
  b.velocity < a.velocity ∨ (a.velocity = b.velocity ∧ b.pitch ≤ a.pitch)

instance : DecidableRel rankSpecGE := fun a b => by unfold rankSpecGE; exact inferInstance

/-- Models the cap of one onset group under the ranking claimed by C5. -/
def keepTopSpec (cap : ℕ) (group : List Note) : List Note :=
  ((group.insertionSort rankSpecGE).take cap).insertionSort chronoLE

/-- Models the grouping loop of the cap pass under the ranking claimed by
C5. -/
def capPassSpecAux (w : ℚ) (cap : ℕ) (first : Note) (group : List Note) : List Note → List Note
  | [] => keepTopSpec cap (first :: group.reverse)
  | n :: rest =>
    if n.start - first.start ≤ w then capPassSpecAux w cap first (n :: group) rest
    else keepTopSpec cap (first :: group.reverse) ++ capPassSpecAux w cap n [] rest

/-- Models the cap pass under the ranking claimed by C5. -/
def capPassSpec (w : ℚ) (cap : ℕ) : List Note → List Note
  | [] => []
  | n :: rest => capPassSpecAux w cap n [] rest

/-- Modelled from the spec: the Score Merger rule as claim C6 words it —
of the two matching notes keep whichever has the longer duration, ties
broken by higher velocity. -/
def mergeChoiceSpec (kept cur : Note) : Note :=
  if kept.stop - kept.start < cur.stop - cur.start then cur
  else if cur.stop - cur.start < kept.stop - kept.start then kept
  else if kept.velocity < cur.velocity then cur else kept

/-- Input of the C1 counterexample: two long notes with onsets 1 s apart. -/
def c1Notes : List Note := [⟨60, 100, 0, 10⟩, ⟨62, 100, 1, 10⟩]

/-- Input of the C2 counterexample: two pitch-60 notes 0.02 s apart with a
pitch-62 note in between. -/
def c2Notes : List Note := [⟨60, 100, 0, 1/2⟩, ⟨62, 100, 1/100, 1/2⟩, ⟨60, 100, 1/50, 1/2⟩]

/-- Input of the C5 scenario: five notes starting within 0.01 s,
velocities [40, 90, 60, 110, 70] (distinct pitches, so the merge pass is a
no-op). -/
def c5Notes : List Note :=
  [⟨60, 40, 0, 1/2⟩, ⟨62, 90, 1/500, 1/2⟩, ⟨64, 60, 1/250, 1/2⟩,
   ⟨65, 110, 3/500, 1/2⟩, ⟨67, 70, 1/125, 1/2⟩]

/-- Input of the C5 counterexample: equal velocities, distinct pitches. -/
def c5CexNotes : List Note := [⟨60, 100, 0, 1/2⟩, ⟨62, 100, 1/100, 1/2⟩]

/-- Input of the C6 counterexample: the longer, quieter note. -/
def c6A : Note := ⟨60, 50, 0, 1⟩

/-- Input of the C6 counterexample: the shorter, louder note. -/
def c6B : Note := ⟨60, 60, 1/100, 1/2⟩

/-- Input of the C4 counterexample: a note exactly at the duration floor. -/
def c4Note : Note := ⟨60, 100, 0, 1/20⟩

/-! ### Helper lemmas -/

lemma keepTop_length_le (cap : ℕ) (g : List Note) : (keepTop cap g).length ≤ cap := by
  unfold keepTop
  have h1 := (List.perm_insertionSort chronoLE ((g.insertionSort rankGE).take cap)).length_eq
  rw [h1, List.length_take]
  exact min_le_left _ _

lemma capPassAux_eq_clusters (w : ℚ) (cap : ℕ) :
    ∀ (l : List Note) (first : Note) (group : List Note),
      capPassAux w cap first group l
        = ((clustersAux w first group l).map (keepTop cap)).flatten := by
  intro l
  induction l with
  | nil => intro first group; simp [capPassAux, clustersAux]
  | cons n rest ih =>
    intro first group
    by_cases h : n.start - first.start ≤ w
    · simp only [capPassAux, clustersAux, if_pos h]; exact ih first (n :: group)
    · simp only [capPassAux, clustersAux, if_neg h, List.map_cons, List.flatten_cons]
      rw [ih n []]

lemma capPass_eq_clusters (w : ℚ) (cap : ℕ) (ns : List Note) :
    capPass w cap ns = ((clusters w ns).map (keepTop cap)).flatten := by
  cases ns with
  | nil => simp [capPass, clusters]
  | cons n rest => simp only [capPass, clusters]; exact capPassAux_eq_clusters w cap rest n []

lemma chain'_mergeFold (w : ℚ) :
    ∀ (l acc : List Note),
      List.Chain' (fun a b => ¬(a.pitch = b.pitch ∧ absQ (a.start - b.start) ≤ w)) acc →
      List.Chain' (fun a b => ¬(a.pitch = b.pitch ∧ absQ (a.start - b.start) ≤ w))
        (l.foldl (mergeDup w) acc) := by
  intro l
  induction l with
  | nil => intro acc h; simpa using h
  | cons n rest ih =>
    intro acc h
    rw [List.foldl_cons]
    apply ih
    cases acc with
    | nil => simp [mergeDup]
    | cons m ms =>
      by_cases hc : n.pitch = m.pitch ∧ absQ (n.start - m.start) ≤ w
      · simp only [mergeDup, if_pos hc]
        cases ms with
        | nil => simp
        | cons m2 ms2 =>
          rw [List.chain'_cons] at h ⊢
          exact ⟨by simpa using h.1, h.2⟩
      · simp only [mergeDup, if_neg hc]
        rw [List.chain'_cons]
        exact ⟨hc, h⟩

instance : IsTotal Note rankGE := ⟨by intro a b; unfold rankGE; omega⟩

instance : IsTrans Note rankGE := ⟨by intro a b c hab hbc; unfold rankGE at *; omega⟩

instance : IsTotal Note chronoLE := ⟨by
  intro a b
  unfold chronoLE
  rcases lt_trichotomy a.start b.start with h | h | h
  · exact Or.inl (Or.inl h)
  · rcases le_total a.pitch b.pitch with hp | hp
    · exact Or.inl (Or.inr ⟨h, hp⟩)
    · exact Or.inr (Or.inr ⟨h.symm, hp⟩)
  · exact Or.inr (Or.inl h)⟩

instance : IsTrans Note chronoLE := ⟨by
  intro a b c hab hbc
  unfold chronoLE at *
  rcases hab with h1 | ⟨e1, p1⟩
  · rcases hbc with h2 | ⟨e2, p2⟩
    · exact Or.inl (h1.trans h2)
    · exact Or.inl (e2 ▸ h1)
  · rcases hbc with h2 | ⟨e2, p2⟩
    · exact Or.inl (e1 ▸ h2)
    · exact Or.inr ⟨e1.trans e2, p1.trans p2⟩⟩

lemma pyround_nearest (y : ℚ) : |(pyround y : ℚ) - y| ≤ 1/2 := by
  unfold pyround
  have hf : (⌊y⌋ : ℚ) ≤ y := Int.floor_le y
  have hf1 : y < ⌊y⌋ + 1 := Int.lt_floor_add_one y
  by_cases h1 : y - ⌊y⌋ < 1/2
  · rw [if_pos h1, abs_le]; constructor <;> push_cast <;> linarith
  · rw [if_neg h1]
    by_cases h2 : 1/2 < y - ⌊y⌋
    · rw [if_pos h2, abs_le]; constructor <;> push_cast <;> linarith
    · rw [if_neg h2]
      by_cases h3 : Even ⌊y⌋
      · rw [if_pos h3, abs_le]; constructor <;> push_cast <;> linarith
      · rw [if_neg h3, abs_le]; constructor <;> push_cast <;> linarith

lemma quantize_time_nearest (g x : ℚ) (hg : 0 < g) :
    _quantize_time x g = (pyround (x / g) : ℚ) * g ∧ |_quantize_time x g - x| ≤ g / 2 := by
  unfold _quantize_time
  rw [if_neg (not_le.mpr hg)]
  refine ⟨rfl, ?_⟩
  have h0 : (pyround (x / g) : ℚ) * g - x = ((pyround (x / g) : ℚ) - x / g) * g := by
    field_simp
  rw [h0, abs_mul, abs_of_pos hg]
  have h1 := pyround_nearest (x / g)
  calc |(pyround (x / g) : ℚ) - x / g| * g ≤ (1/2) * g :=
        mul_le_mul_of_nonneg_right h1 hg.le
    _ = g / 2 := by ring

lemma processNote_minDur (sx : Bool) (g d : ℚ) (pmin pmax : ℤ) (n : Note) :
    d ≤ (processNote sx g d pmin pmax n).stop - (processNote sx g d pmin pmax n).start := by
  unfold processNote
  set n2 := (if sx = true ∧ 0 < g then quantizeNote g { n with pitch := clampPitch pmin pmax n.pitch }
    else { n with pitch := clampPitch pmin pmax n.pitch }) with hn2
  by_cases h : n2.stop - n2.start < d
  · rw [if_pos h]; simp
  · rw [if_neg h]; linarith [not_lt.mp h]

lemma smoothNotes_mem_time (vs : List ℤ) :
    ∀ (l : List Note) (i : ℕ) (m : Note), m ∈ smoothNotes vs i l →
      ∃ n ∈ l, m.start = n.start ∧ m.stop = n.stop := by
  intro l
  induction l with
  | nil => intro i m hm; simp [smoothNotes] at hm
  | cons n rest ih =>
    intro i m hm
    rw [smoothNotes] at hm
    rcases List.mem_cons.mp hm with h | h
    · exact ⟨n, List.mem_cons_self n rest, by rw [h], by rw [h]⟩
    · obtain ⟨x, hx, he⟩ := ih (i+1) m h
      exact ⟨x, List.mem_cons_of_mem n hx, he⟩

lemma humanizeNote_zero_time (hV : ℤ) (jT : ℚ) (jV : ℤ) (n : Note) :
    (humanizeNote 0 hV jT jV n).start = n.start ∧ (humanizeNote 0 hV jT jV n).stop = n.stop := by
  unfold humanizeNote
  rw [if_neg (lt_irrefl (0:ℚ))]
  split_ifs <;> simp

lemma humanizePass_mem_zero_time (hV : ℤ) (tD : ℕ → ℚ) (vD : ℕ → ℤ) :
    ∀ (l : List Note) (i : ℕ) (m : Note), m ∈ humanizePass 0 hV tD vD i l →
      ∃ n ∈ l, m.start = n.start ∧ m.stop = n.stop := by
  intro l
  induction l with
  | nil => intro i m hm; simp [humanizePass] at hm
  | cons n rest ih =>
    intro i m hm
    rw [humanizePass] at hm
    rcases List.mem_cons.mp hm with h | h
    · refine ⟨n, List.mem_cons_self n rest, ?_, ?_⟩
      · rw [h]; exact (humanizeNote_zero_time hV (tD i) (vD i) n).1
      · rw [h]; exact (humanizeNote_zero_time hV (tD i) (vD i) n).2
    · obtain ⟨x, hx, he⟩ := ih (i+1) m h
      exact ⟨x, List.mem_cons_of_mem n hx, he⟩

lemma argFold_all_le {α : Type} (f : α → ℤ) :
    ∀ (ls : List α) (b : Option α) (s : ℤ), (∀ a ∈ ls, f a ≤ s) →
      ls.foldl (argStep f) (b, s) = (b, s) := by
  intro ls
  induction ls with
  | nil => intro b s _; rfl
  | cons hd tl ih =>
    intro b s h
    rw [List.foldl_cons]
    simp only [argStep]
    rw [if_neg (not_lt.mpr (h hd (List.mem_cons_self hd tl)))]
    exact ih b s (fun a ha => h a (List.mem_cons_of_mem hd ha))

lemma argFold_firstmax {α : Type} (f : α → ℤ) :
    ∀ (ls : List α) (b : Option α) (s : ℤ) (a : α), a ∈ ls → s < f a →
      ∃ l1 c l2, ls = l1 ++ c :: l2 ∧
        ls.foldl (argStep f) (b, s) = (some c, f c) ∧ s < f c ∧
        (∀ x ∈ l1, f x < f c) ∧ (∀ x ∈ l2, f x ≤ f c) := by
  intro ls
  induction ls with
  | nil => intro b s a ha; exact absurd ha (List.not_mem_nil a)
  | cons hd tl ih =>
    intro b s a ha hsa
    rw [List.foldl_cons]
    by_cases hhd : s < f hd
    · simp only [argStep, if_pos hhd]
      by_cases htl : ∃ x ∈ tl, f hd < f x
      · obtain ⟨x, hx, hfx⟩ := htl
        obtain ⟨l1, c, l2, heq, hfold, hlt, hall1, hall2⟩ := ih (some hd) (f hd) x hx hfx
        refine ⟨hd :: l1, c, l2, by rw [heq, List.cons_append], hfold, hhd.trans hlt, ?_, hall2⟩
        intro y hy
        rcases List.mem_cons.mp hy with h | h
        · rw [h]; exact hlt
        · exact hall1 y h
      · push_neg at htl
        rw [argFold_all_le f tl (some hd) (f hd) htl]
        exact ⟨[], hd, tl, rfl, rfl, hhd, by intro x hx; simp at hx, htl⟩
    · simp only [argStep, if_neg hhd]
      have ha' : a ∈ tl := by
        rcases List.mem_cons.mp ha with h | h
        · rw [h] at hsa; exact absurd hsa hhd
        · exact h
      obtain ⟨l1, c, l2, heq, hfold, hlt, hall1, hall2⟩ := ih b s a ha' hsa
      refine ⟨hd :: l1, c, l2, by rw [heq, List.cons_append], hfold, hlt, ?_, hall2⟩
      intro y hy
      rcases List.mem_cons.mp hy with h | h
      · rw [h]; exact (not_lt.mp hhd).trans_lt hlt
      · exact hall1 y h

lemma chordScore_nonneg (pcs : List ℤ) (c : ℕ × List ℤ) : 0 ≤ chordScore pcs c :=
  Int.natCast_nonneg _

lemma head_mem_chordCands : ((0, majorTriad 0) : ℕ × List ℤ) ∈ chordCands := by
  unfold chordCands
  refine List.mem_flatMap.mpr ⟨0, ?_, ?_⟩
  · simp
  · simp

lemma classify_firstmax (pcs : List ℤ) (hne : pcs ≠ []) :
    ∃ l1 c l2, chordCands = l1 ++ c :: l2 ∧ _classify_chord pcs = some c ∧
      (∀ x ∈ l1, chordScore (pcSet pcs) x < chordScore (pcSet pcs) c) ∧
      (∀ x ∈ chordCands, chordScore (pcSet pcs) x ≤ chordScore (pcSet pcs) c) := by
  obtain ⟨l1, c, l2, heq, hfold, _, hall1, hall2⟩ :=
    argFold_firstmax (chordScore (pcSet pcs)) chordCands none (-1) (0, majorTriad 0)
      head_mem_chordCands
      (lt_of_lt_of_le (by norm_num) (chordScore_nonneg (pcSet pcs) (0, majorTriad 0)))
  refine ⟨l1, c, l2, heq, ?_, hall1, ?_⟩
  · unfold _classify_chord
    rw [if_neg hne, hfold]
  · intro x hx
    rw [heq] at hx
    rcases List.mem_append.mp hx with h | h
    · exact (hall1 x h).le
    · rcases List.mem_cons.mp h with h | h
      · rw [h]
      · exact hall2 x h

lemma chordCands_shape (c : ℕ × List ℤ) (hc : c ∈ chordCands) : c.1 < 12 ∧ c.2.length = 3 := by
  unfold chordCands at hc
  obtain ⟨r, hr, hc2⟩ := List.mem_flatMap.mp hc
  have hr12 : r < 12 := List.mem_range.mp hr
  have hlen : ∀ r' ∈ List.range 12, (majorTriad r').length = 3 ∧ (minorTriad r').length = 3 := by
    decide
  rcases List.mem_cons.mp hc2 with h | h
  · rw [h]; exact ⟨hr12, (hlen r hr).1⟩
  · have h' : c = (r, minorTriad r) := by simpa using h
    rw [h']; exact ⟨hr12, (hlen r hr).2⟩

lemma classify_total (pcs : List ℤ) (hne : pcs ≠ []) :
    ∃ r t, _classify_chord pcs = some (r, t) ∧ r < 12 ∧ t.length = 3 := by
  obtain ⟨l1, c, l2, heq, hsome, _, _⟩ := classify_firstmax pcs hne
  have hc : c ∈ chordCands := by
    rw [heq]; exact List.mem_append_right l1 (List.mem_cons_self c l2)
  obtain ⟨h12, h3⟩ := chordCands_shape c hc
  exact ⟨c.1, c.2, by rw [hsome], h12, h3⟩

lemma arrangeBlockNotes_ne_nil (style : String) (bassOctave tc : ℤ) (pcs : List ℤ)
    (t t2 : ℚ) (hne : pcs ≠ []) : arrangeBlockNotes style bassOctave tc pcs t t2 ≠ [] := by
  obtain ⟨r, tri, hsome, _, _⟩ := classify_total pcs hne
  unfold arrangeBlockNotes
  rw [hsome]
  split_ifs <;> simp

/-! ### Claim theorems -/

/-- Claim C1 (corrected): the cap of `_clean_polyphony` is per onset
cluster, not per instant.  The output is exactly the concatenation, over
the onset clusters of the merged note list, of the capped groups, and
every capped group keeps at most `max_notes_per_onset` notes.  The
per-instant polyphony bound of the claim is refuted separately. -/
theorem C1_cluster_cap :
    ∀ (w : ℚ) (cap : ℕ) (ns : List Note),
      _clean_polyphony w cap ns
        = ((clusters w (mergePass w (ns.insertionSort cleanLE))).map (keepTop cap)).flatten ∧
      ∀ g : List Note, (keepTop cap g).length ≤ cap := by
  intro w cap ns
  constructor
  · unfold _clean_polyphony
    exact capPass_eq_clusters w cap _
  · intro g
    exact keepTop_length_le cap g

/-- Claim C1 counterexample: with `onset_window = 0.03` and
`max_notes_per_onset = 1`, both kept notes of `c1Notes` (onsets 1 s apart,
both sustained to 10 s) contain the instant `t = 2`, so the per-instant
polyphony bound claimed for every instant fails on the code. -/
theorem C1_instant_bound_cex : 1 < soundingCount (_clean_polyphony (3/100) 1 c1Notes) 2 := by
  have h : _clean_polyphony (3/100) 1 c1Notes = c1Notes := by
    norm_num [_clean_polyphony, c1Notes, List.insertionSort, List.orderedInsert, cleanLE,
      mergePass, mergeDup, capPass, capPassAux, keepTop, rankGE, chronoLE, absQ, List.foldl]
  rw [h]
  norm_num [soundingCount, c1Notes, List.filter]

/-- Claim C2 (corrected): after the merge pass of `_clean_polyphony`, no
kept note has the same pitch as the immediately preceding kept note with
onsets within `onset_window`.  The pairwise (non-adjacent) version claimed
by the spec is refuted separately: a different-pitch note in between
defeats the dedup. -/
theorem C2_merge_adjacent_dedup :
    ∀ (w : ℚ) (ns : List Note),
      List.Chain' (fun m n => ¬(n.pitch = m.pitch ∧ absQ (n.start - m.start) ≤ w))
        (mergePass w ns) := by
  intro w ns
  unfold mergePass
  rw [List.chain'_reverse]
  exact chain'_mergeFold w ns [] (by simp)

/-- Claim C2 counterexample: the three notes of `c2Notes` (pitch 60 at
0.0 s, pitch 62 at 0.01 s, pitch 60 at 0.02 s) all survive
`_clean_polyphony` with the default cap 4, leaving two pitch-60 notes
0.02 s apart — within the 0.03 s window — so the claimed dedup guarantee
fails on the code. -/
theorem C2_window_dedup_cex :
    ¬ List.Pairwise (fun m n => m.pitch = n.pitch → (3/100 : ℚ) < absQ (m.start - n.start))
      (_clean_polyphony (3/100) 4 c2Notes) := by
  have h : _clean_polyphony (3/100) 4 c2Notes = c2Notes := by
    norm_num [_clean_polyphony, c2Notes, List.insertionSort, List.orderedInsert, cleanLE,
      mergePass, mergeDup, capPass, capPassAux, keepTop, rankGE, chronoLE, absQ, List.foldl]
  rw [h]
  intro hp
  have := (List.pairwise_cons.mp hp).1 ⟨60, 100, 1/50, 1/2⟩ (by simp [c2Notes])
  norm_num [absQ] at this

/-- Claim C3 (confirmed): for every positive grid, `_quantize_time` is the
nearest-multiple snap `round(x/g)*g` (the result is an integer multiple of
the grid, at most `g/2` away from the input), the quantization step sets
`end = start + grid` exactly when rounding collapses the note, and the
scenario Note(pitch 60, velocity 100, start 0.103, end 0.245) processed at
bpm 120 (grid 0.125 s) comes out with start 0.125 and end 0.25. -/
theorem C3_quantize_grid (g x : ℚ) (hg : 0 < g) :
    (∃ k : ℤ, _quantize_time x g = (k : ℚ) * g ∧ |_quantize_time x g - x| ≤ g / 2) ∧
    (∀ n : Note, (quantizeNote g n).start = _quantize_time n.start g ∧
      (quantizeNote g n).stop =
        (if _quantize_time n.stop g ≤ _quantize_time n.start g
         then _quantize_time n.start g + g else _quantize_time n.stop g)) ∧
    postProcessNotes (some 120) (1/20) true 21 108 true 0 0 false (fun _ => 0) (fun _ => 0)
        [⟨60, 100, 103/1000, 49/200⟩] = [⟨60, 100, 1/8, 1/4⟩] := by
  refine ⟨⟨pyround (x / g), quantize_time_nearest g x hg⟩, ?_, ?_⟩
  · intro n
    unfold quantizeNote
    split_ifs with h <;> simp [h]
  · norm_num [postProcessNotes, processNote, clampPitch, quantizeNote, _quantize_time, pyround,
      smoothNotes, humanizePass, humanizeNote, Option.getD]

/-- Claim C3 witness: the nearest-multiple property instantiated at
grid 2 and input 3. -/
theorem C3_quantize_grid_witness :
    (0 : ℚ) < 2 ∧
    ∃ k : ℤ, _quantize_time 3 2 = (k : ℚ) * 2 ∧ |_quantize_time 3 2 - 3| ≤ 2 / 2 :=
  ⟨by norm_num, (C3_quantize_grid 2 3 (by norm_num)).1⟩

/-- Claim C4 (corrected): the duration floor `end - start >= min_duration`
holds after `_post_process_midi` whenever timing humanization is disabled
(`humanize_timing_sec = 0`, any other settings arbitrary).  With timing
jitter enabled the floor can be violated because the jittered `start` is
clamped at 0; this is refuted separately. -/
theorem C4_duration_floor :
    ∀ (bpm : Option ℚ) (minDur : ℚ) (sixteenth : Bool) (pmin pmax : ℤ) (smoothVel : Bool)
      (hV : ℤ) (addSustain : Bool) (tDraw : ℕ → ℚ) (vDraw : ℕ → ℤ) (ns : List Note),
      ∀ n ∈ postProcessNotes bpm minDur sixteenth pmin pmax smoothVel 0 hV addSustain
          tDraw vDraw ns, minDur ≤ n.stop - n.start := by
  intro bpm minDur sx pmin pmax sv hV sus tD vD ns n hn
  simp only [postProcessNotes] at hn
  set grid : ℚ := if sx = true then 60 / bpm.getD 120 / 4 else 0 with hg
  set ns1 := ns.map (processNote sx grid minDur pmin pmax) with h1
  have p1 : ∀ m ∈ ns1, minDur ≤ m.stop - m.start := by
    intro m hm
    obtain ⟨x, _, hx⟩ := List.mem_map.mp hm
    rw [← hx]
    exact processNote_minDur sx grid minDur pmin pmax x
  set ns2 := if sv = true ∧ 3 ≤ ns1.length then smoothNotes (ns1.map Note.velocity) 0 ns1 else ns1
    with h2
  have p2 : ∀ m ∈ ns2, minDur ≤ m.stop - m.start := by
    intro m hm
    rw [h2] at hm
    split_ifs at hm
    · obtain ⟨x, hx, hs, he⟩ := smoothNotes_mem_time (ns1.map Note.velocity) ns1 0 m hm
      rw [hs, he]; exact p1 x hx
    · exact p1 m hm
  set ns3 := if (0 < (0:ℚ) ∨ 0 < hV) ∧ ns2 ≠ [] then humanizePass 0 hV tD vD 0 ns2 else ns2
    with h3
  have p3 : ∀ m ∈ ns3, minDur ≤ m.stop - m.start := by
    intro m hm
    rw [h3] at hm
    split_ifs at hm
    · obtain ⟨x, hx, hs, he⟩ := humanizePass_mem_zero_time hV tD vD ns2 0 m hm
      rw [hs, he]; exact p2 x hx
    · exact p2 m hm
  split_ifs at hn
  · exact p3 n ((List.perm_insertionSort startLE ns3).mem_iff.mp hn)
  · exact p3 n hn

/-- Claim C4 witness: the duration floor instantiated on a one-note score
with `min_duration = 1` and all optional stages off. -/
theorem C4_duration_floor_witness :
    (⟨60, 100, 0, 2⟩ : Note) ∈ postProcessNotes none 1 false 21 108 false 0 0 false
        (fun _ => 0) (fun _ => 0) [⟨60, 100, 0, 2⟩] ∧
    (1 : ℚ) ≤ (⟨60, 100, 0, 2⟩ : Note).stop - (⟨60, 100, 0, 2⟩ : Note).start :=
  have hm : (⟨60, 100, 0, 2⟩ : Note) ∈ postProcessNotes none 1 false 21 108 false 0 0 false
      (fun _ => 0) (fun _ => 0) [⟨60, 100, 0, 2⟩] := by
    norm_num [postProcessNotes, processNote, clampPitch, humanizePass, humanizeNote,
      smoothNotes, Option.getD]
  ⟨hm, C4_duration_floor none 1 false 21 108 false 0 false (fun _ => 0) (fun _ => 0)
    [⟨60, 100, 0, 2⟩] ⟨60, 100, 0, 2⟩ hm⟩

/-- Claim C4 counterexample: with `min_duration = 0.05` and timing jitter
`humanize_timing_sec = 0.02`, the admissible draw -0.02 on the note
`c4Note` (start 0, end 0.05) clamps the new start at 0 while the end moves
to 0.03, so a note of duration 0.03 < 0.05 survives post-processing. -/
theorem C4_duration_floor_cex :
    ¬ ∀ n ∈ postProcessNotes none (1/20) false 21 108 true (1/50) 0 false
        (fun _ => -(1/50)) (fun _ => 0) [c4Note], (1/20 : ℚ) ≤ n.stop - n.start := by
  have hout : postProcessNotes none (1/20) false 21 108 true (1/50) 0 false
      (fun _ => -(1/50)) (fun _ => 0) [c4Note] = [⟨60, 100, 0, 3/100⟩] := by
    norm_num [postProcessNotes, processNote, clampPitch, c4Note, smoothNotes, humanizePass,
      humanizeNote, Option.getD, max_def]
  intro h
  have := h ⟨60, 100, 0, 3/100⟩ (by rw [hout]; exact List.mem_singleton.mpr rfl)
  norm_num at this

/-- Claim C5 (corrected): within an onset cluster the cap pass ranks by
velocity descending with ties by pitch ascending (`rankGE`, from
`reverse=True` on the key `(velocity, -pitch)`) — not pitch descending as
claimed — keeps the top `max_notes_per_onset`, and restores chronological
`(start, pitch)` order; on the five-note scenario the kept notes are
exactly the velocities {110, 90, 70} in original relative order. -/
theorem C5_cap_ranking :
    (∀ (cap : ℕ) (g : List Note),
        (g.insertionSort rankGE).Perm g ∧
        List.Sorted rankGE (g.insertionSort rankGE) ∧
        keepTop cap g = ((g.insertionSort rankGE).take cap).insertionSort chronoLE ∧
        (keepTop cap g).Perm ((g.insertionSort rankGE).take cap) ∧
        List.Sorted chronoLE (keepTop cap g)) ∧
    (_clean_polyphony (3/100) 3 c5Notes).map Note.velocity = [90, 110, 70] ∧
    (_clean_polyphony (3/100) 3 c5Notes).map Note.pitch = [62, 65, 67] := by
  refine ⟨fun cap g => ⟨List.perm_insertionSort _ _, List.sorted_insertionSort _ _, rfl,
    List.perm_insertionSort _ _, List.sorted_insertionSort _ _⟩, ?_, ?_⟩ <;>
  norm_num [_clean_polyphony, c5Notes, List.insertionSort, List.orderedInsert, cleanLE,
    mergePass, mergeDup, capPass, capPassAux, keepTop, rankGE, chronoLE, absQ, List.foldl]

/-- Claim C5 counterexample: on two equal-velocity notes of pitches 60 and
62 with cap 1, the code keeps pitch 60 (ascending tie-break) while the
ranking claimed by C5 — velocity descending, pitch descending — keeps
pitch 62. -/
theorem C5_cap_ranking_cex :
    (_clean_polyphony (3/100) 1 c5CexNotes).map Note.pitch = [60] ∧
    (capPassSpec (3/100) 1 (mergePass (3/100) (c5CexNotes.insertionSort cleanLE))).map Note.pitch
      = [62] := by
  constructor <;>
  norm_num [_clean_polyphony, c5CexNotes, List.insertionSort, List.orderedInsert, cleanLE,
    mergePass, mergeDup, capPass, capPassAux, capPassSpec, capPassSpecAux, keepTop, keepTopSpec,
    rankGE, rankSpecGE, chronoLE, absQ, List.foldl]

/-- Claim C6 (corrected): when the current note matches the last kept note
(same pitch, start within `dedup_window`), `_merge_midis_union` keeps the
current note iff it has strictly longer duration OR strictly higher
velocity — a disjunction, not the duration-first rule of the claim — and
consequently the discarded note never beats the kept one in both duration
and velocity simultaneously. -/
theorem C6_merge_keep_rule (w : ℚ) (m n : Note) (rest : List Note)
    (h : n.pitch = m.pitch ∧ absQ (n.start - m.start) ≤ w) :
    dedupStep w (m :: rest) n =
      (if m.stop - m.start < n.stop - n.start ∨ m.velocity < n.velocity then n else m) :: rest ∧
    ∀ kept dropped : Note,
      kept = (if m.stop - m.start < n.stop - n.start ∨ m.velocity < n.velocity then n else m) →
      dropped = (if m.stop - m.start < n.stop - n.start ∨ m.velocity < n.velocity then m else n) →
      ¬(kept.stop - kept.start < dropped.stop - dropped.start ∧
        kept.velocity < dropped.velocity) := by
  by_cases hc : m.stop - m.start < n.stop - n.start ∨ m.velocity < n.velocity
  · refine ⟨by simp [dedupStep, h, hc], ?_⟩
    intro kept dropped hk hd
    rw [if_pos hc] at hk hd
    subst hk; subst hd
    rintro ⟨h1, h2⟩
    rcases hc with hc | hc
    · exact absurd (h1.trans hc) (lt_irrefl _)
    · exact absurd (h2.trans hc) (lt_irrefl _)
  · refine ⟨by simp [dedupStep, h, hc], ?_⟩
    intro kept dropped hk hd
    rw [if_neg hc] at hk hd
    subst hk; subst hd
    rintro ⟨h1, h2⟩
    exact hc (Or.inl h1)

/-- Claim C6 witness: the replacement rule instantiated on two concrete
matching notes. -/
theorem C6_merge_keep_rule_witness :
    ((⟨60, 60, 0, 1⟩ : Note).pitch = (⟨60, 50, 0, 3⟩ : Note).pitch ∧
      absQ ((⟨60, 60, 0, 1⟩ : Note).start - (⟨60, 50, 0, 3⟩ : Note).start) ≤ 1) ∧
    dedupStep 1 [⟨60, 50, 0, 3⟩] ⟨60, 60, 0, 1⟩ =
      (if (⟨60, 50, 0, 3⟩ : Note).stop - (⟨60, 50, 0, 3⟩ : Note).start
            < (⟨60, 60, 0, 1⟩ : Note).stop - (⟨60, 60, 0, 1⟩ : Note).start
          ∨ (⟨60, 50, 0, 3⟩ : Note).velocity < (⟨60, 60, 0, 1⟩ : Note).velocity
       then (⟨60, 60, 0, 1⟩ : Note) else ⟨60, 50, 0, 3⟩) :: [] :=
  have hm : (⟨60, 60, 0, 1⟩ : Note).pitch = (⟨60, 50, 0, 3⟩ : Note).pitch ∧
      absQ ((⟨60, 60, 0, 1⟩ : Note).start - (⟨60, 50, 0, 3⟩ : Note).start) ≤ 1 := by
    norm_num [absQ]
  ⟨hm, (C6_merge_keep_rule 1 ⟨60, 50, 0, 3⟩ ⟨60, 60, 0, 1⟩ [] hm).1⟩

/-- Claim C6 counterexample: the kept note `c6A` is longer (duration 1 vs
0.49) but quieter (velocity 50 vs 60) than the matching note `c6B`; the
code keeps the shorter, louder `c6B`, while the rule claimed by C6 (longer
duration wins, velocity only breaks ties) keeps `c6A`. -/
theorem C6_merge_keep_rule_cex :
    _merge_midis_union (3/100) (1/50) [c6A] [c6B] = [c6B] ∧
    c6B.stop - c6B.start < c6A.stop - c6A.start ∧
    mergeChoiceSpec c6A c6B = c6A := by
  refine ⟨?_, by norm_num [c6A, c6B], by norm_num [mergeChoiceSpec, c6A, c6B]⟩
  norm_num [_merge_midis_union, c6A, c6B, List.insertionSort, List.orderedInsert, unionLE,
    dedupStep, absQ, List.foldl]

/-- Claim C7 (corrected): after the timing jitter of the humanizer,
`start >= 0` and `end > start` always hold, and the duration is preserved
whenever the shifted start is not clamped at 0 and the duration is at
least 0.01 s; when the clamp at 0 fires the duration can change, refuted
separately. -/
theorem C7_jitter_clamp (hT jT : ℚ) (hV jV : ℤ) (n : Note) (hpos : 0 < hT) :
    0 ≤ (humanizeNote hT hV jT jV n).start ∧
    (humanizeNote hT hV jT jV n).start < (humanizeNote hT hV jT jV n).stop ∧
    (0 ≤ n.start + jT → 1/100 ≤ n.stop - n.start →
      (humanizeNote hT hV jT jV n).stop - (humanizeNote hT hV jT jV n).start
        = n.stop - n.start) := by
  unfold humanizeNote
  rw [if_pos hpos]
  have hs : ∀ m : Note,
      (if 0 < hV then { m with velocity := max 1 (min 127 (m.velocity + jV)) } else m).start
        = m.start := by
    intro m; split_ifs <;> rfl
  have he : ∀ m : Note,
      (if 0 < hV then { m with velocity := max 1 (min 127 (m.velocity + jV)) } else m).stop
        = m.stop := by
    intro m; split_ifs <;> rfl
  rw [hs, he]
  simp only []
  refine ⟨le_max_left 0 _, ?_, ?_⟩
  · calc max 0 (n.start + jT) < max 0 (n.start + jT) + 1/100 := by linarith
      _ ≤ max (max 0 (n.start + jT) + 1/100) (n.stop + jT) := le_max_left _ _
  · intro hge hdur
    rw [max_eq_right hge, max_eq_right (by linarith : n.start + jT + 1/100 ≤ n.stop + jT)]
    ring

/-- Claim C7 witness: the jitter guarantees instantiated at jitter bound 1,
draw 0, on a concrete note. -/
theorem C7_jitter_clamp_witness :
    (0 : ℚ) < 1 ∧ 0 ≤ (humanizeNote 1 0 0 0 ⟨60, 100, 1, 2⟩).start :=
  ⟨by norm_num, (C7_jitter_clamp 1 0 0 0 ⟨60, 100, 1, 2⟩ (by norm_num)).1⟩

/-- Claim C7 counterexample: the note (start 0.02, end 0.1) jittered by
-0.05 has its start clamped at 0 and comes out with duration 0.05 instead
of the original 0.08, so the jitter does not always preserve duration. -/
theorem C7_jitter_clamp_cex :
    (humanizeNote (1/20) 0 (-(1/20)) 0 ⟨60, 100, 1/50, 1/10⟩).stop
        - (humanizeNote (1/20) 0 (-(1/20)) 0 ⟨60, 100, 1/50, 1/10⟩).start
      ≠ ((⟨60, 100, 1/50, 1/10⟩ : Note).stop - (⟨60, 100, 1/50, 1/10⟩ : Note).start) := by
  norm_num [humanizeNote, max_def]

/-- Claim C8 (confirmed): for every non-empty input, `_classify_chord`
returns the first candidate — in scan order: roots 0..11 ascending, major
before minor — attaining the maximal overlap with the input pitch-class
set (every earlier candidate scores strictly less, no candidate scores
more); {0,4,7} classifies as root 0 major, {0,3,7} as root 0 minor, and
the empty input yields none. -/
theorem C8_classify_firstmax :
    (∀ pcs : List ℤ, pcs ≠ [] →
      ∃ l1 c l2, chordCands = l1 ++ c :: l2 ∧ _classify_chord pcs = some c ∧
        (∀ x ∈ l1, chordScore (pcSet pcs) x < chordScore (pcSet pcs) c) ∧
        (∀ x ∈ chordCands, chordScore (pcSet pcs) x ≤ chordScore (pcSet pcs) c)) ∧
    _classify_chord [0, 4, 7] = some (0, [0, 4, 7]) ∧
    _classify_chord [0, 3, 7] = some (0, [0, 3, 7]) ∧
    _classify_chord [] = none :=
  ⟨classify_firstmax, by decide, by decide, rfl⟩

/-- Claim C8 witness: the first-maximum characterization instantiated at
the one-element input [0]. -/
theorem C8_classify_firstmax_witness :
    ([0] : List ℤ) ≠ [] ∧
    ∃ l1 c l2, chordCands = l1 ++ c :: l2 ∧ _classify_chord [0] = some c ∧
      (∀ x ∈ l1, chordScore (pcSet [0]) x < chordScore (pcSet [0]) c) ∧
      (∀ x ∈ chordCands, chordScore (pcSet [0]) x ≤ chordScore (pcSet [0]) c) :=
  ⟨by simp, C8_classify_firstmax.1 [0] (by simp)⟩

/-- Claim C9 (corrected): the refiner never throws on NaN/Inf energies —
every comparison is a total Boolean function, a NaN support score fails
the prune comparison (so the note is dropped), and a NaN fill candidate
fails the fill comparison — but the clipping coerces only negative values
(including -inf) to 0: NaN and +inf pass through uncoerced, contrary to
the claimed coercion to 0. -/
theorem C9_refine_nan :
    (∀ q : ℚ, q < 0 → EV.clip0 (EV.fin q) = EV.fin 0) ∧
    EV.clip0 EV.ninf = EV.fin 0 ∧ EV.clip0 EV.nan = EV.nan ∧ EV.clip0 EV.pinf = EV.pinf ∧
    (∀ (frames : List EV) (cmax : EV),
      supportScore frames cmax = EV.nan → pruneKeep frames cmax = false) ∧
    (∀ thresh cmax : EV, fillCandidate EV.nan thresh cmax = false) := by
  refine ⟨?_, rfl, rfl, rfl, ?_, ?_⟩
  · intro q hq
    simp [EV.clip0, max_eq_left hq.le]
  · intro frames cmax h
    unfold pruneKeep
    rw [h]
    rfl
  · intro thresh cmax
    cases thresh <;> cases cmax <;> rfl

/-- Claim C9 witness: the negative-value coercion instantiated at -1. -/
theorem C9_refine_nan_witness :
    (-1 : ℚ) < 0 ∧ EV.clip0 (EV.fin (-1)) = EV.fin 0 :=
  ⟨by norm_num, C9_refine_nan.1 (-1) (by norm_num)⟩

/-- Claim C9 counterexample: on the frame energies [NaN, 1.0] the code
pipeline (clip, max-or-1, mean, divide, compare) leaves NaN uncoerced and
prunes the note, while the coercion to 0 required by the claim yields
support 0.5 >= 0.12 and keeps it; and the clip itself does not send NaN
to 0. -/
theorem C9_refine_nan_cex :
    pruneKeep ([EV.nan, EV.fin 1].map EV.clip0) (cmaxOr [[EV.nan, EV.fin 1].map EV.clip0])
      = false ∧
    pruneKeep ([EV.nan, EV.fin 1].map coerceSpec)
        (cmaxOr [[EV.nan, EV.fin 1].map coerceSpec]) = true ∧
    EV.clip0 EV.nan ≠ EV.fin 0 := by
  refine ⟨?_, ?_, by simp [EV.clip0]⟩
  · norm_num [pruneKeep, supportScore, evMean, evSum, cmaxOr, evMax, EV.clip0, EV.add, EV.div,
      EV.geQ, EV.max2, max_def]
  · norm_num [pruneKeep, supportScore, evMean, evSum, cmaxOr, evMax, coerceSpec, EV.add, EV.div,
      EV.geQ, EV.max2, max_def, List.cons_ne_nil]

/-- Claim C10 (confirmed): `_classify_chord` returns a classification — a
root below 12 with a 3-element triad — for every non-empty input and never
the no-chord result; a block of `_arrange_piano_style` produces no notes
iff its active pitch-class list is empty, which happens iff no input note
overlaps the block. -/
theorem C10_arrange_total :
    (∀ pcs : List ℤ, pcs ≠ [] →
      ∃ r t, _classify_chord pcs = some (r, t) ∧ r < 12 ∧ t.length = 3) ∧
    (∀ (style : String) (bassOctave tc : ℤ) (pcs : List ℤ) (t t2 : ℚ),
      (arrangeBlockNotes style bassOctave tc pcs t t2 = [] ↔ pcs = [])) ∧
    (∀ (notes : List Note) (t t2 : ℚ),
      (activePcs notes t t2 = [] ↔ ∀ n ∈ notes, ¬(n.start < t2 ∧ t < n.stop))) := by
  refine ⟨classify_total, ?_, ?_⟩
  · intro style bassOctave tc pcs t t2
    constructor
    · intro h
      by_contra hne
      exact arrangeBlockNotes_ne_nil style bassOctave tc pcs t t2 hne h
    · intro h
      rw [h]
      rfl
  · intro notes t t2
    simp [activePcs, List.filter_eq_nil_iff]

/-- Claim C10 witness: classification totality instantiated at the
one-element input [0]. -/
theorem C10_arrange_total_witness :
    ([0] : List ℤ) ≠ [] ∧
    ∃ r t, _classify_chord [0] = some (r, t) ∧ r < 12 ∧ t.length = 3 :=
  ⟨by simp, C10_arrange_total.1 [0] (by simp)⟩
